import Mathlib

/-!
Verification development for the auto-git repository.

The Lean definitions below are shallow embeddings of the Python source:

* `auto_git/config.py`    — `COMMIT_TYPES`, `COMMIT_SUBJECT_RE`
* `auto_git/validation.py`— `lint_commit_dict`
* `auto_git/git/history.py` — `apply_fix_plan`, `apply_commits`
* `auto_git/ai/client.py` — `parse_json_from_openai_response`
* `auto_git/watcher.py`   — `ChangeHandler` debounce/coalesce state machine

Machine strings are Lean `String`s, git object ids (shas) are `Nat` indices
into an object store, times are `Nat`s, and Python exceptions are explicit
error values.  Subprocess git calls are modelled by a `GitState` record; the
OpenAI network call itself is outside every claim and is not modelled.
-/

set_option maxRecDepth 4000

namespace AutoGit

/-- Decidable equality for `Except`, needed to evaluate the embedded
fallible operations on concrete inputs. -/
instance {ε α : Type} [DecidableEq ε] [DecidableEq α] : DecidableEq (Except ε α) :=
  fun a b =>
    match a, b with
    | .error e, .error f =>
      if h : e = f then isTrue (by rw [h])
      else isFalse (by intro hh; cases hh; exact h rfl)
    | .error _, .ok _ => isFalse (by intro h; cases h)
    | .ok _, .error _ => isFalse (by intro h; cases h)
    | .ok x, .ok y =>
      if h : x = y then isTrue (by rw [h])
      else isFalse (by intro hh; cases hh; exact h rfl)

/-- Python truthiness of `x or d` for an optional string `x`: `None` and the
empty string are falsy, everything else (including whitespace) is truthy. -/
def pyOr (o : Option String) (d : String) : String :=
  match o with
  | none => d
  | some s => if s = "" then d else s

/-- Drop leading and trailing whitespace from a character list.  Models
Python `str.strip()` (which Lean mirrors for the space/tab/CR/LF characters
occurring in this code base). -/
def trimChars (l : List Char) : List Char :=
  ((l.dropWhile Char.isWhitespace).reverse.dropWhile Char.isWhitespace).reverse

/-- Python `str.strip()` on a Lean string, via `trimChars`. -/
def strTrim (s : String) : String := ⟨trimChars s.data⟩

/-- Structural `startsWith` on character lists (first argument the string,
second the candidate head). -/
def startsWithChars : List Char → List Char → Bool
  | _, [] => true
  | [], _ :: _ => false
  | c :: cs, p :: ps => c = p && startsWithChars cs ps

/-- Python `str.lower()` (ASCII case folding, as used on strategy names). -/
def strLower (s : String) : String := ⟨s.data.map Char.toLower⟩

/-! ## Validation (`auto_git/validation.py`, `auto_git/config.py`) -/

/-- The `COMMIT_TYPES` set literal of `config.py`, in source order. -/
def COMMIT_TYPES : List String :=
  ["feat", "fix", "docs", "style", "refactor", "perf", "test", "build", "ci",
   "chore", "revert"]

/-- Alternation list of `COMMIT_SUBJECT_RE`
(pattern `^(feat|fix|docs|style|refactor|perf|test|build|ci|chore|revert)(\(.+\))?: .+$`),
in the order written in the regex. -/
def subjectReTypes : List String :=
  ["feat", "fix", "docs", "style", "refactor", "perf", "test", "build", "ci",
   "chore", "revert"]

/-- No character of `l` is a newline (Python `.` does not match `\n`). -/
def noNewline (l : List Char) : Bool := !(l.contains '\n')

/-- Does `l` match the regex fragment `.+$` under Python semantics?  The
chars matched by `.` exclude `\n`, and `$` matches at the end of the string
or just before a single trailing newline. -/
def dotPlusDollar (l : List Char) : Bool :=
  match l.getLast? with
  | none => false
  | some c =>
    if c = '\n' then
      let m := l.dropLast
      !m.isEmpty && noNewline m
    else noNewline l

/-- Backtracking search for the regex fragment `.+\): .+$` (the inside of the
optional scope group of `COMMIT_SUBJECT_RE`, after its opening parenthesis).
`yne` records whether at least one scope character was consumed so far. -/
def scopeSearch : List Char → Bool → Bool
  | [], _ => false
  | c :: rest, yne =>
    (c = ')' &&
      (match rest with
       | ':' :: ' ' :: x => yne && dotPlusDollar x
       | _ => false))
    || (c != '\n' && scopeSearch rest true)

/-- Does `l` match the regex fragment `(\(.+\))?: .+$`? -/
def subjectTail (l : List Char) : Bool :=
  (match l with
   | ':' :: ' ' :: x => dotPlusDollar x
   | _ => false)
  || (match l with
      | '(' :: rest => scopeSearch rest false
      | _ => false)

/-- `COMMIT_SUBJECT_RE.match(s)` as a boolean.  No commit type is a leading
substring of another, so the Python regex alternation is equivalent to this
search. -/
def commitSubjectMatches (s : String) : Bool :=
  subjectReTypes.any (fun t =>
    startsWithChars s.data t.data && subjectTail (s.data.drop t.data.length))

/-- A proposed commit dictionary, as consumed by `lint_commit_dict`.
`type = none` models an absent `"type"` key; `body = none` an absent body.
Non-string titles/bodies and non-list files fields are unrepresentable here,
so the corresponding `isinstance` failure branches of the source are dead in
the embedding. -/
structure ProposedCommit where
  type : Option String := none
  title : String := ""
  body : Option String := none
  files : List String := []
deriving Repr, DecidableEq

/-- The distinct `ValueError` messages raised by `lint_commit_dict`. -/
inductive LintError where
  /-- `Invalid commit type: {ctype}` -/
  | invalidType (ctype : Option String)
  /-- `Commit title is required` -/
  | titleRequired
  /-- `Commit title must be less than 75 characters` -/
  | titleTooLong
  /-- `Commit files are required` -/
  | filesRequired
  /-- `Commit title must match the format: <type>(<scope>): <subject>` -/
  | subjectFormat
deriving Repr, DecidableEq

/-- Embedding of `lint_commit_dict` (`validation.py`): validates a proposed
commit and returns the composed subject line. -/
def lint_commit_dict (c : ProposedCommit) : Except LintError String :=
  if !(match c.type with
       | some t => COMMIT_TYPES.contains t
       | none => false) then
    .error (.invalidType c.type)
  else if (trimChars c.title.data).isEmpty then
    .error .titleRequired
  else if 75 < c.title.length then
    .error .titleTooLong
  else if c.files = [] then
    .error .filesRequired
  else
    let subject := c.type.getD "" ++ ": " ++ c.title
    if !commitSubjectMatches subject then
      .error .subjectFormat
    else
      .ok subject

/-! ## Applying proposed commits (`apply_commits`, `git/history.py`) -/

/-- Environment of `apply_commits`: the filesystem and git subprocess
behaviour it consults.  `fileExists` is `os.path.exists`, `tracked` is
`is_tracked`, `addOk` tells whether `git add -A -- <targets>` exits zero, and
`commitOk subject body` whether `git commit` exits zero. -/
structure CommitEnv where
  fileExists : String → Bool
  tracked : String → Bool
  addOk : List String → Bool
  commitOk : String → String → Bool

/-- The staging targets collected by `apply_commits` for one commit: files
that exist on disk, plus tracked files (deletions), in input order. -/
def stageTargets (env : CommitEnv) (files : List String) : List String :=
  files.filter (fun f => env.fileExists f || env.tracked f)

/-- Embedding of `apply_commits` (`git/history.py`).  Returns the list of
subjects actually committed and, when `lint_commit_dict` raised, the
propagated `ValidationError` (the source has no handler around the lint
call, so the exception aborts the whole loop).  Console output and the
final commit-log display are elided. -/
def apply_commits (env : CommitEnv) : List ProposedCommit → List String × Option LintError
  | [] => ([], none)
  | c :: rest =>
    if c.files = [] then apply_commits env rest
    else
      match lint_commit_dict c with
      | .error e => ([], some e)
      | .ok subject =>
        let body := pyOr c.body ""
        let targets := stageTargets env c.files
        if targets = [] then apply_commits env rest
        else if !env.addOk targets then apply_commits env rest
        else if env.commitOk subject body then
          let r := apply_commits env rest
          (subject :: r.1, r.2)
        else apply_commits env rest

/-! ## Oracle response parsing (`parse_json_from_openai_response`, `ai/client.py`) -/

/-- JSON values as produced by Python `json.JSONDecoder`.  Numbers keep their
source lexeme (Python converts them to `int`/`float`; numeral conversion is
irrelevant to the parsing contract under verification).  Objects are
insertion-ordered key/value lists, as CPython dicts are. -/
inductive Json where
  | null
  | bool (b : Bool)
  | num (lexeme : String)
  | str (s : String)
  | arr (elts : List Json)
  | obj (fields : List (String × Json))

/-- JSON whitespace accepted by the Python decoder between tokens. -/
def jsonWs (c : Char) : Bool := c = ' ' || c = '\t' || c = '\n' || c = '\r'

/-- Drop leading JSON whitespace. -/
def skipWs (l : List Char) : List Char := l.dropWhile jsonWs

/-- Value of one hex digit, if any. -/
def hexVal (c : Char) : Option Nat :=
  if '0' ≤ c ∧ c ≤ '9' then some (c.toNat - '0'.toNat)
  else if 'a' ≤ c ∧ c ≤ 'f' then some (c.toNat - 'a'.toNat + 10)
  else if 'A' ≤ c ∧ c ≤ 'F' then some (c.toNat - 'A'.toNat + 10)
  else none

/-- Body of a JSON string after the opening quote: returns the decoded
characters and the input following the closing quote.  Mirrors the strict
Python scanner: raw control characters are rejected, only the eight JSON
escapes plus `\uXXXX` are accepted.  (Surrogate-pair recombination is not
modelled; no claim involves it.) -/
def parseStringBody : Nat → List Char → Option (List Char × List Char)
  | 0, _ => none
  | _ + 1, [] => none
  | _ + 1, '"' :: rest => some ([], rest)
  | fuel + 1, '\\' :: esc =>
    match esc with
    | '"' :: rest => (parseStringBody fuel rest).map (fun p => ('"' :: p.1, p.2))
    | '\\' :: rest => (parseStringBody fuel rest).map (fun p => ('\\' :: p.1, p.2))
    | '/' :: rest => (parseStringBody fuel rest).map (fun p => ('/' :: p.1, p.2))
    | 'b' :: rest => (parseStringBody fuel rest).map (fun p => ('\x08' :: p.1, p.2))
    | 'f' :: rest => (parseStringBody fuel rest).map (fun p => ('\x0c' :: p.1, p.2))
    | 'n' :: rest => (parseStringBody fuel rest).map (fun p => ('\n' :: p.1, p.2))
    | 'r' :: rest => (parseStringBody fuel rest).map (fun p => ('\x0d' :: p.1, p.2))
    | 't' :: rest => (parseStringBody fuel rest).map (fun p => ('\t' :: p.1, p.2))
    | 'u' :: a :: b :: c :: d :: rest =>
      match hexVal a, hexVal b, hexVal c, hexVal d with
      | some x, some y, some z, some w =>
        (parseStringBody fuel rest).map
          (fun p => (Char.ofNat (((x * 16 + y) * 16 + z) * 16 + w) :: p.1, p.2))
      | _, _, _, _ => none
    | _ => none
  | fuel + 1, c :: rest =>
    if c.toNat < 32 then none
    else (parseStringBody fuel rest).map (fun p => (c :: p.1, p.2))

/-- Integer part of the Python `NUMBER_RE`: `(?:0|[1-9]\d*)`. -/
def intPartLex : List Char → Option (List Char × List Char)
  | '0' :: r => some (['0'], r)
  | c :: r =>
    if '1' ≤ c ∧ c ≤ '9' then
      some (c :: r.takeWhile Char.isDigit, r.dropWhile Char.isDigit)
    else none
  | [] => none

/-- Optional fraction `(\.\d+)?` and exponent `([eE][-+]?\d+)?` of
`NUMBER_RE`; each group is consumed only if complete. -/
def numFracExp (acc : List Char) (l : List Char) : List Char × List Char :=
  let p1 :=
    match l with
    | '.' :: r =>
      let ds := r.takeWhile Char.isDigit
      if ds.isEmpty then (acc, l) else (acc ++ '.' :: ds, r.dropWhile Char.isDigit)
    | _ => (acc, l)
  match p1.2 with
  | e :: r =>
    if e = 'e' ∨ e = 'E' then
      let sp :=
        match r with
        | '+' :: rr => (['+'], rr)
        | '-' :: rr => (['-'], rr)
        | _ => (([] : List Char), r)
      let ds := sp.2.takeWhile Char.isDigit
      if ds.isEmpty then p1
      else (p1.1 ++ e :: (sp.1 ++ ds), sp.2.dropWhile Char.isDigit)
    else p1
  | [] => p1

/-- Lexeme of a JSON number at the head of the input (`NUMBER_RE.match`). -/
def parseNumberLex (l : List Char) : Option (List Char × List Char) :=
  match l with
  | '-' :: r => (intPartLex r).map (fun p => numFracExp ('-' :: p.1) p.2)
  | _ => (intPartLex l).map (fun p => numFracExp p.1 p.2)

/-- Replace the value of `key` if present (keeping its position, as CPython
dict assignment does), else append the pair. -/
def insertField : List (String × Json) → String → Json → List (String × Json)
  | [], k, v => [(k, v)]
  | (k0, v0) :: rest, k, v =>
    if k0 = k then (k0, v) :: rest else (k0, v0) :: insertField rest k v

mutual

/-- One JSON value at the head of the input, as scanned by Python
`json.scanner.py_make_scanner` (`scan_once`): string, object, array,
`null`/`true`/`false`, number, or the `NaN`/`Infinity`/`-Infinity`
constants.  Leading whitespace is not skipped, exactly as in `raw_decode`. -/
def parseValue : Nat → List Char → Option (Json × List Char)
  | 0, _ => none
  | fuel + 1, l =>
    match l with
    | '"' :: rest =>
      (parseStringBody (rest.length + 1) rest).map (fun p => (Json.str ⟨p.1⟩, p.2))
    | '\x7b' :: rest => parseMembers fuel (skipWs rest) []
    | '[' :: rest => parseElements fuel (skipWs rest) []
    | 'n' :: 'u' :: 'l' :: 'l' :: rest => some (Json.null, rest)
    | 't' :: 'r' :: 'u' :: 'e' :: rest => some (Json.bool true, rest)
    | 'f' :: 'a' :: 'l' :: 's' :: 'e' :: rest => some (Json.bool false, rest)
    | 'N' :: 'a' :: 'N' :: rest => some (Json.num "NaN", rest)
    | 'I' :: 'n' :: 'f' :: 'i' :: 'n' :: 'i' :: 't' :: 'y' :: rest =>
      some (Json.num "Infinity", rest)
    | '-' :: 'I' :: 'n' :: 'f' :: 'i' :: 'n' :: 'i' :: 't' :: 'y' :: rest =>
      some (Json.num "-Infinity", rest)
    | _ => (parseNumberLex l).map (fun p => (Json.num ⟨p.1⟩, p.2))

/-- Members of a JSON object after the opening brace (whitespace already
skipped); `acc` holds the fields parsed so far. -/
def parseMembers : Nat → List Char → List (String × Json) → Option (Json × List Char)
  | 0, _, _ => none
  | fuel + 1, l, acc =>
    match l with
    | '"' :: rest =>
      match parseStringBody (rest.length + 1) rest with
      | none => none
      | some (key, r1) =>
        match skipWs r1 with
        | ':' :: r2 =>
          match parseValue fuel (skipWs r2) with
          | none => none
          | some (v, r3) =>
            let acc2 := insertField acc ⟨key⟩ v
            match skipWs r3 with
            | ',' :: r4 => parseMembers fuel (skipWs r4) acc2
            | '\x7d' :: r4 => some (Json.obj acc2, r4)
            | _ => none
        | _ => none
    | '\x7d' :: rest => if acc.isEmpty then some (Json.obj [], rest) else none
    | _ => none

/-- Elements of a JSON array after the opening bracket (whitespace already
skipped); `acc` holds the elements parsed so far. -/
def parseElements : Nat → List Char → List Json → Option (Json × List Char)
  | 0, _, _ => none
  | fuel + 1, l, acc =>
    match l with
    | ']' :: rest => if acc.isEmpty then some (Json.arr [], rest) else none
    | _ =>
      match parseValue fuel l with
      | none => none
      | some (v, r1) =>
        match skipWs r1 with
        | ',' :: r2 => parseElements fuel (skipWs r2) (acc ++ [v])
        | ']' :: r2 => some (Json.arr (acc ++ [v]), r2)
        | _ => none

end

/-- Python `json.JSONDecoder().raw_decode(s)`: parse the first complete JSON
value starting at index 0 and discard everything after it.  `none` models
the raised `JSONDecodeError`.  The fuel bound suffices: at most two decoder
frames are entered per consumed character. -/
def rawDecode (s : String) : Option Json :=
  (parseValue (2 * s.data.length + 2) s.data).map (fun p => p.1)

/-- Split the input at the first occurrence of three consecutive backticks,
returning the part before and the part after the fence. -/
def splitAtFence : List Char → Option (List Char × List Char)
  | '\x60' :: '\x60' :: '\x60' :: rest => some ([], rest)
  | c :: rest => (splitAtFence rest).map (fun p => (c :: p.1, p.2))
  | [] => none

/-- Drop a case-insensitive `json` language tag (the regex group
`(?:json)?` under `re.IGNORECASE`). -/
def stripJsonTag (l : List Char) : List Char :=
  match l with
  | a :: b :: c :: d :: rest =>
    if a.toLower = 'j' ∧ b.toLower = 's' ∧ c.toLower = 'o' ∧ d.toLower = 'n' then rest
    else l
  | _ => l

/-- Model of `re.search(r"` ``` `(?:json)?\s*([\s\S]*?)\s*` ``` `", s, re.IGNORECASE)`
followed by the source's `m.group(1).strip()`.  The lazy capture ends at the
first closing fence, and the surrounding `\s*` groups together with the
subsequent `.strip()` trim the captured text; a fence with no closing fence
after it implies no later fence pair exists at all (the tag contains no
backtick), so a single left-to-right scan is faithful to `re.search`. -/
def extractFence (s : String) : Option String :=
  match splitAtFence s.data with
  | none => none
  | some (_, tl) =>
    match splitAtFence (stripJsonTag tl) with
    | none => none
    | some (inner, _) => some ⟨trimChars inner⟩

/-- Cut the input at the first `[` or `\x7b`, whichever comes first
(`min` of the two `str.find` results in the source); unchanged when neither
occurs. -/
def trimToBracket (s : String) : String :=
  match s.data.findIdx? (fun c => c = '[' || c = '\x7b') with
  | none => s
  | some i => ⟨s.data.drop i⟩

/-- Embedding of `parse_json_from_openai_response` (`ai/client.py`):
strip the text, prefer the contents of a fenced code block when present,
trim to the first JSON bracket, then `raw_decode` the first JSON value. -/
def parse_json_from_openai_response (text : String) : Option Json :=
  let s0 := strTrim text
  let s1 :=
    match extractFence s0 with
    | some inner => inner
    | none => s0
  rawDecode (trimToBracket s1)

/-- The parsing contract exactly as the claim words it: when a fenced block
is present its contents are parsed directly from their start; only
otherwise is the input cut to the first `[` or `\x7b` before parsing. -/
def parseOracleClaimModel (text : String) : Option Json :=
  match extractFence (strTrim text) with
  | some inner => rawDecode inner
  | none => rawDecode (trimToBracket (strTrim text))

/-- The amended parsing contract: extract the fenced block when present, and
in either case cut to the first `[` or `\x7b` before parsing the first JSON
value. -/
def parseOracleAmendedModel (text : String) : Option Json :=
  match extractFence (strTrim text) with
  | some inner => rawDecode (trimToBracket inner)
  | none => rawDecode (trimToBracket (strTrim text))

/-! ## Git object model and `apply_fix_plan` (`git/history.py`)

Commit objects are addressed by `Nat` shas: index into `GitState.objects`.
`git commit-tree` appends a new object (sha = current store length) without
touching any ref; `git reset --hard X` moves the current branch to `X` and
makes the working tree clean.  `HEAD` is the current branch tip. -/

/-- One git commit object: tree sha, parent shas, and the two message
paragraphs passed via `-m` (subject and body). -/
structure Commit where
  tree : Nat
  parents : List Nat
  title : String
  body : String
deriving Repr, DecidableEq

/-- Repository state visible to `apply_fix_plan`: the object store, the
current branch tip (= `HEAD`), the resolved upstream ref if any
(`get_upstream_ref`), and whether `git status --porcelain` is empty. -/
structure GitState where
  objects : List Commit
  branch : Nat
  upstream : Option Nat
  clean : Bool
deriving Repr, DecidableEq

/-- One entry of a rewrite plan's `rewrittenCommits`; absent JSON keys are
`none`. -/
structure RewrittenCommit where
  title : Option String := none
  description : Option String := none
deriving Repr, DecidableEq

/-- An AI rewrite plan as consumed by `apply_fix_plan` (only the fields the
function reads). -/
structure FixPlan where
  rewrittenCommits : Option (List RewrittenCommit) := none
  mergeStrategy : Option String := none
deriving Repr, DecidableEq

/-- The distinct failure exits of `apply_fix_plan` (`RuntimeError` messages,
plus `toolError` for a failing git subprocess). -/
inductive FixError where
  /-- `Working tree not clean; commit or stash changes first.` -/
  | dirtyTree
  /-- `History contains merges; linear rewrite only. Aborting.` -/
  | unsupportedHistory
  /-- `Rewrite plan provided an empty commit title.` -/
  | emptyTitle
  /-- `Cannot drop range without a parent commit.` -/
  | noParent
  /-- `Rewrite plan has N commits but history has M; split/reorder not supported automatically.` -/
  | countMismatch
  /-- `Failed to compute new commit chain.` -/
  | noChain
  /-- a git subprocess exited non-zero (`subprocess.CalledProcessError`) -/
  | toolError
deriving Repr, DecidableEq

/-- First-parent chain starting at `sha` (inclusive), as `git log
--first-parent` walks it.  The fuel only cuts off on ill-formed cyclic
stores, which no reachable repository state exhibits. -/
def fpChain (objs : List Commit) : Nat → Nat → List Nat
  | 0, _ => []
  | fuel + 1, sha =>
    match objs[sha]? with
    | none => []
    | some c =>
      sha ::
        (match c.parents with
         | [] => []
         | p :: _ => fpChain objs fuel p)

/-- First-parent chain from `sha` with sufficient fuel for acyclic stores. -/
def fpChainFrom (st : GitState) (sha : Nat) : List Nat :=
  fpChain st.objects (st.objects.length + 1) sha

/-- Does `sha` name a merge commit (two or more parents)? -/
def isMergeSha (st : GitState) (sha : Nat) : Bool :=
  match st.objects[sha]? with
  | some c => 2 ≤ c.parents.length
  | none => false

/-- Output of `git rev-list --merges --first-parent stop..tip`: the
first-parent chain of `tip` minus the first-parent ancestry of `stop`,
restricted to merge commits.  (On a chain, the commits excluded by `stop`
form a suffix, so set difference and traversal cut-off agree.) -/
def revListMergesFP (st : GitState) (stop tip : Nat) : List Nat :=
  let excl := fpChainFrom st stop
  ((fpChainFrom st tip).filter (fun h => !excl.contains h)).filter (isMergeSha st)

/-- Embedding of the inner `_commit_tree` helper of `apply_fix_plan`:
reject an empty (post-strip) title, otherwise create a new commit object
carrying the given tree, the optional parent, and the stripped title/body;
no ref moves.  The `shlex.quote`/`shlex.split` round trip in the source
transports the message text verbatim. -/
def commit_tree (st : GitState) (tree : Nat) (parent : Option Nat) (title body : String) :
    GitState × Except FixError Nat :=
  if (trimChars title.data).isEmpty then (st, .error .emptyTitle)
  else
    let c : Commit :=
      { tree := tree
        parents := parent.toList
        title := ⟨trimChars title.data⟩
        body := ⟨trimChars body.data⟩ }
    ({ st with objects := st.objects ++ [c] }, .ok st.objects.length)

/-- The message-only rewrite loop of `apply_fix_plan`: walk the zipped
plan-entry/original-sha pairs, read each original commit's tree, and chain
new commit objects from `lastNew` onwards. -/
def rewriteChain : GitState → List (RewrittenCommit × Nat) → Option Nat →
    GitState × Except FixError (Option Nat)
  | st, [], lastNew => (st, .ok lastNew)
  | st, (e, orig) :: rest, lastNew =>
    match st.objects[orig]? with
    | none => (st, .error .toolError)
    | some oc =>
      match commit_tree st oc.tree lastNew (pyOr e.title "") (pyOr e.description "") with
      | (st1, .error err) => (st1, .error err)
      | (st1, .ok sha) => rewriteChain st1 rest (some sha)

/-- The merge scan performed by `apply_fix_plan`: with an upstream the
range is `upstream..HEAD`; without one the source interpolates
`f"{base_parent or ''}..{last}"`, whose left side falls back to `HEAD`
when the range's first commit has no parent (git reads an empty left
revision as `HEAD`). -/
def fixRevRangeMerges (st : GitState) (commits : List Nat) : List Nat :=
  match commits with
  | [] => []
  | first :: _ =>
    match st.objects[first]? with
    | none => []
    | some fc =>
      let stop :=
        match st.upstream with
        | some u => u
        | none =>
          match fc.parents.head? with
          | some p => p
          | none => st.branch
      let tip :=
        match st.upstream with
        | some _ => st.branch
        | none => commits.getLastD first
      revListMergesFP st stop tip

/-- The plan entry the squash path uses: the first rewritten commit, or the
default dictionary the source substitutes when the plan supplied none. -/
def squashEntry (plan : FixPlan) : RewrittenCommit :=
  (plan.rewrittenCommits.getD []).headD
    { title := some "Rewrite commits", description := some "" }

/-- Embedding of `apply_fix_plan` (`git/history.py`).  `commits` is the
range argument, oldest first, reduced to its `hash` fields (the only ones
the function reads).  Returns the repository state (errors after object
creation leave dangling objects but never move the branch) together with
the returned status string or raised error. -/
def apply_fix_plan (st : GitState) (commits : List Nat) (plan : FixPlan) :
    GitState × Except FixError String :=
  if !st.clean then (st, .error .dirtyTree)
  else
    let rewritten := plan.rewrittenCommits.getD []
    let ms := strLower (strTrim (pyOr plan.mergeStrategy ""))
    match commits with
    | [] => (st, .ok "noop")
    | first :: _ =>
      match st.objects[first]? with
      | none => (st, .error .toolError)
      | some fc =>
        let base := fc.parents.head?
        if !(fixRevRangeMerges st commits).isEmpty then
          (st, .error .unsupportedHistory)
        else if ms = "drop" ∧ rewritten = [] then
          match base with
          | none => (st, .error .noParent)
          | some p => ({ st with branch := p, clean := true }, .ok "dropped")
        else if ms = "squash" ∨ rewritten.length = 1 then
          let entry := squashEntry plan
          match st.objects[st.branch]? with
          | none => (st, .error .toolError)
          | some hc =>
            match commit_tree st hc.tree base (pyOr entry.title "Rewrite commits")
                (pyOr entry.description "") with
            | (st1, .error e) => (st1, .error e)
            | (st1, .ok sha) => ({ st1 with branch := sha, clean := true }, .ok "squashed")
        else if rewritten.length ≠ commits.length then
          (st, .error .countMismatch)
        else
          match rewriteChain st (rewritten.zip commits) base with
          | (st1, .error e) => (st1, .error e)
          | (st1, .ok none) => (st1, .error .noChain)
          | (st1, .ok (some sha)) => ({ st1 with branch := sha, clean := true }, .ok "rewritten")

/-- The commit objects the message-only rewrite path is expected to create:
for each pair the original tree with the new stripped title/description,
parented on the previous new sha (`nextSha` is the sha the next created
object will receive). -/
def newChain (objs : List Commit) : Nat → Option Nat → List (RewrittenCommit × Nat) → List Commit
  | _, _, [] => []
  | nextSha, lastNew, (e, orig) :: rest =>
    match objs[orig]? with
    | none => []
    | some oc =>
      { tree := oc.tree
        parents := lastNew.toList
        title := ⟨trimChars (pyOr e.title "").data⟩
        body := ⟨trimChars (pyOr e.description "").data⟩ }
        :: newChain objs (nextSha + 1) (some nextSha) rest

/-! ## Debounce/coalesce scheduler (`ChangeHandler`, `watcher.py`)

The handler's lock-protected state is modelled as a record; every
lock-guarded section of the source becomes one atomic step.  `timer` is the
`self._timer` slot reduced to its observable content: `some fireAt` while a
live `threading.Timer` is armed to fire at absolute time `fireAt`, `none`
when the slot is empty or the referenced timer thread is dead.  Times are
naturals; `threading.Timer(d, f)` armed at time `now` fires at `now + d`,
and the source clamps `d` with `max(0.0, ...)`, which Nat subtraction
mirrors.  The status-display throttle fields (`_last_status_message`,
`_last_status_time`) feed no scheduling decision and are elided. -/

/-- Lock-protected scheduler state of `ChangeHandler`. -/
structure SchedState where
  pending : Bool
  processing : Bool
  timer : Option Nat
  lastRun : Nat
  nextRun : Option Nat
  stopSet : Bool
deriving Repr, DecidableEq

/-- Embedding of `_schedule_locked`: refuse when stopping or when a live
timer exists, otherwise arm a timer that will fire `delay` after `now`. -/
def scheduleLocked (st : SchedState) (now delay : Nat) : SchedState :=
  if st.stopSet then st
  else if st.timer.isSome then st
  else { st with timer := some (now + delay) }

/-- Embedding of the lock-guarded head of `_process_pending`, the timer
callback.  `fromTimer` distinguishes the timer-thread invocation (after
which the firing timer thread is dead) from the synchronous interval-zero
call in `on_any_event`.  Returns the new state and whether the apply
routine was entered (a processing run starts). -/
def processPendingStep (interval : Nat) (fromTimer : Bool) (st : SchedState) (now : Nat) :
    SchedState × Bool :=
  let dead := fun (s : SchedState) => if fromTimer then { s with timer := none } else s
  if st.stopSet then (dead st, false)
  else if st.processing then (dead st, false)
  else if !st.pending then ({ st with timer := none }, false)
  else
    let st1 :=
      if 0 < interval ∧ st.nextRun = none then
        { st with nextRun := some (if 0 < st.lastRun then st.lastRun + interval else now + interval) }
      else st
    match st1.nextRun with
    | some nr =>
      if 0 < interval ∧ now < nr then
        (scheduleLocked { st1 with timer := none } now (nr - now), false)
      else
        ({ st1 with pending := false, processing := true, lastRun := now,
                    timer := none, nextRun := none }, true)
    | none =>
      ({ st1 with pending := false, processing := true, lastRun := now,
                  timer := none, nextRun := none }, true)

/-- Embedding of `on_any_event` past the ignore filters (`ignored` combines
the `ignore_dirs` and `is_git_ignored` checks, which consult the
filesystem).  Marks pending; with a positive interval computes the window
deadline (only when unset) and arms the debounce timer; with interval zero
processes synchronously. -/
def onAnyEvent (interval : Nat) (st : SchedState) (now : Nat) (ignored : Bool) :
    SchedState × Bool :=
  if st.stopSet then (st, false)
  else if ignored then (st, false)
  else
    let st1 := { st with pending := true }
    if 0 < interval then
      let st2 :=
        if st1.nextRun = none then
          { st1 with nextRun := some (if 0 < st1.lastRun then st1.lastRun + interval else now + interval) }
        else st1
      (scheduleLocked st2 now ((st2.nextRun.getD 0) - now), false)
    else
      processPendingStep interval false st1 now

/-- Embedding of the `finally` block of `_process_pending`: leave the
processing state; unless stopping, coalesce any pending events into the
next window and re-arm the timer when none is live. -/
def completeStep (interval : Nat) (st : SchedState) (now : Nat) : SchedState :=
  let st1 := { st with processing := false }
  if st1.stopSet then st1
  else if st1.pending then
    if 0 < interval then
      let st2 := { st1 with nextRun := some (st1.lastRun + interval) }
      scheduleLocked st2 now ((st1.lastRun + interval) - now)
    else scheduleLocked st1 now 0
  else st1

/-- The three kinds of atomic scheduler step: a filesystem event, the armed
timer firing, and the apply routine finishing. -/
inductive SchedAct where
  | event (now : Nat) (ignored : Bool)
  | fire (now : Nat)
  | complete (now : Nat)
deriving Repr, DecidableEq

/-- One atomic scheduler step; the boolean reports whether a processing run
started. -/
def stepSched (interval : Nat) (st : SchedState) : SchedAct → SchedState × Bool
  | .event now ig => onAnyEvent interval st now ig
  | .fire now => processPendingStep interval true st now
  | .complete now => (completeStep interval st now, false)

/-- Run a sequence of scheduler steps, counting started processing runs. -/
def runSched (interval : Nat) : SchedState → List SchedAct → SchedState × Nat
  | st, [] => (st, 0)
  | st, a :: rest =>
    let p := stepSched interval st a
    let q := runSched interval p.1 rest
    (q.1, (if p.2 then 1 else 0) + q.2)

/-- Is an action possible in a state?  A timer can fire only when armed,
and it fires at its armed absolute time; a completion requires an in-flight
run; events are always possible. -/
def validAct (st : SchedState) : SchedAct → Bool
  | .event _ _ => true
  | .fire now => st.timer = some now
  | .complete _ => st.processing

/-- Is a whole step sequence possible from `st`? -/
def validTrace (interval : Nat) : SchedState → List SchedAct → Bool
  | _, [] => true
  | st, a :: rest => validAct st a && validTrace interval (stepSched interval st a).1 rest

/-- A burst of filesystem events (all passing the ignore filters) at the
given times. -/
def eventTrace (xs : List Nat) : List SchedAct :=
  xs.map (fun x => SchedAct.event x false)

/-- The idle scheduler state: nothing pending, no run in flight, no timer,
no deadline; `lastRun` remembers the previous run's start time. -/
def idleSt (lastRun : Nat) : SchedState :=
  { pending := false, processing := false, timer := none,
    lastRun := lastRun, nextRun := none, stopSet := false }

/-- Scheduler state while the apply routine runs: `_process_pending`
cleared `pending`, `timer` and `nextRun` and recorded its start time. -/
def procSt (runStart : Nat) : SchedState :=
  { pending := false, processing := true, timer := none,
    lastRun := runStart, nextRun := none, stopSet := false }

/-! ## Concrete fixtures

Small repository states, plans, commit dictionaries and environments on
which the theorems are evaluated. -/

/-- A linear three-commit repository (root, then two commits), branch at
the tip, no upstream, clean working tree. -/
def exRepo : GitState :=
  { objects :=
      [ { tree := 100, parents := [], title := "root", body := "" }
      , { tree := 101, parents := [0], title := "feat: a", body := "" }
      , { tree := 102, parents := [1], title := "fix: b", body := "" } ]
    branch := 2
    upstream := none
    clean := true }

/-- A repository whose tip is a merge commit and whose range base parent
exists (the merge scan catches this shape). -/
def exMerge : GitState :=
  { objects :=
      [ { tree := 100, parents := [], title := "root", body := "" }
      , { tree := 101, parents := [0], title := "side", body := "" }
      , { tree := 102, parents := [0], title := "main1", body := "" }
      , { tree := 103, parents := [2, 1], title := "merge", body := "" } ]
    branch := 3
    upstream := none
    clean := true }

/-- A repository whose history starts at a root commit and whose tip is a
merge: the first-parent range `[0, 2]` from the root contains the merge,
but the range's first commit has no parent. -/
def exRootMerge : GitState :=
  { objects :=
      [ { tree := 100, parents := [], title := "root", body := "" }
      , { tree := 101, parents := [0], title := "side", body := "" }
      , { tree := 102, parents := [0, 1], title := "merge", body := "" } ]
    branch := 2
    upstream := none
    clean := true }

/-- A two-entry message-only rewrite plan (the spec's `reorder` example). -/
def exRewritePlan : FixPlan :=
  { rewrittenCommits := some [{ title := some "Add A" }, { title := some "Fix B" }]
    mergeStrategy := some "reorder" }

/-- A single-entry squash plan. -/
def exSquashPlan : FixPlan :=
  { rewrittenCommits := some [{ title := some "One", description := some "d" }]
    mergeStrategy := some "squash" }

/-- A three-entry plan with an empty merge strategy (count mismatch for a
two-commit range). -/
def exMismatchPlan : FixPlan :=
  { rewrittenCommits := some [{ title := some "a" }, { title := some "b" }, { title := some "c" }]
    mergeStrategy := some "" }

/-- An environment in which every filesystem and git operation succeeds. -/
def envAllOk : CommitEnv :=
  { fileExists := fun _ => true
    tracked := fun _ => true
    addOk := fun _ => true
    commitOk := fun _ _ => true }

/-- A valid proposed commit. -/
def cGood : ProposedCommit := { type := some "feat", title := "one", files := ["a"] }

/-- A proposed commit with an invalid type. -/
def cBad : ProposedCommit := { type := some "oops", title := "x", files := ["a"] }

/-- A second valid proposed commit, listed after the invalid one. -/
def cGood2 : ProposedCommit := { type := some "fix", title := "two", files := ["b"] }

/-! ## Theorems -/

/-- C10: for every rewrite plan, when the commit range passed to
`apply_fix_plan` is empty and the working tree is clean, the function
returns `"noop"` without creating any object, moving any branch pointer, or
raising any error — regardless of the plan's `mergeStrategy` or
`rewrittenCommits`. -/
theorem apply_fix_plan_empty_range_noop (st : GitState) (plan : FixPlan)
    (hclean : st.clean = true) :
    apply_fix_plan st [] plan = (st, .ok "noop") := by
  simp [apply_fix_plan, hclean]

/-- Witness for `apply_fix_plan_empty_range_noop` at a concrete clean state
and a plan with a `squash` strategy. -/
theorem apply_fix_plan_empty_range_noop_witness :
    exRepo.clean = true ∧
      apply_fix_plan exRepo [] { mergeStrategy := some "squash" } = (exRepo, .ok "noop") :=
  ⟨rfl, apply_fix_plan_empty_range_noop exRepo _ rfl⟩

/-- C3 counterexample: with interval 5, a previous run at time 10 and an
event arriving at time 100 while idle, the scheduler sets `next_run_time`
to `last_run_time + interval = 15`, not `max(now, last_run_time) + interval
= 105` as the claim states. -/
theorem on_any_event_deadline_cex :
    ((stepSched 5 (idleSt 10) (.event 100 false)).1).nextRun = some 15 ∧
      some 15 ≠ some (max 100 10 + 5) := by decide

/-- Arming the debounce timer changes neither the deadline nor the pending
flag. -/
theorem scheduleLocked_keeps_window (st : SchedState) (now delay : Nat) :
    (scheduleLocked st now delay).nextRun = st.nextRun ∧
    (scheduleLocked st now delay).pending = st.pending := by
  unfold scheduleLocked
  split
  · exact ⟨rfl, rfl⟩
  · split
    · exact ⟨rfl, rfl⟩
    · exact ⟨rfl, rfl⟩

/-- C3 (amended): for every filesystem event passing the ignore filters
while the stop flag is unset and the configured interval is positive, the
scheduler marks pending and computes `next_run_time` — only if not already
set — as `last_run_time + interval` when a run has already happened
(`last_run_time > 0`) and as `now + interval` otherwise; repeated events
inside the same window never push the deadline forward. -/
theorem on_any_event_sets_deadline_once
    (I : Nat) (st : SchedState) (now : Nat)
    (hI : 0 < I) (hstop : st.stopSet = false) :
    ((stepSched I st (.event now false)).1).pending = true ∧
    ((stepSched I st (.event now false)).1).nextRun =
      (match st.nextRun with
       | some d => some d
       | none => some (if 0 < st.lastRun then st.lastRun + I else now + I)) := by
  unfold stepSched onAnyEvent
  simp only [hstop, Bool.false_eq_true, if_false, hI, if_pos]
  cases h : st.nextRun with
  | none =>
    simp [h, scheduleLocked]
    split
    · exact ⟨rfl, rfl⟩
    · exact ⟨rfl, rfl⟩
  | some d =>
    simp [h, scheduleLocked]
    split
    · exact ⟨rfl, rfl⟩
    · exact ⟨rfl, rfl⟩

/-- Witness for `on_any_event_sets_deadline_once` at interval 5, the idle
starting state, and an event at time 7. -/
theorem on_any_event_sets_deadline_once_witness :
    ((stepSched 5 (idleSt 0) (.event 7 false)).1).pending = true ∧
    ((stepSched 5 (idleSt 0) (.event 7 false)).1).nextRun =
      (match (idleSt 0).nextRun with
       | some d => some d
       | none => some (if 0 < (idleSt 0).lastRun then (idleSt 0).lastRun + 5 else 7 + 5)) :=
  on_any_event_sets_deadline_once 5 (idleSt 0) 7 (by decide) rfl

/-- C8 counterexample: the commit-type set has eleven distinct members and
`lint_commit_dict` accepts a commit for every one of them, so the closed
set of accepted types does not have exactly ten elements. -/
theorem commit_types_eleven_cex :
    COMMIT_TYPES.Nodup ∧ COMMIT_TYPES.length = 11 ∧
      COMMIT_TYPES.all (fun t =>
        match lint_commit_dict { type := some t, title := "x", files := ["a"] } with
        | .ok _ => true
        | .error _ => false) = true := by decide

/-- C8 (amended): `lint_commit_dict` succeeds only when the commit's type
belongs to the closed set of eleven conventional-commit types; a type
outside the set fails with `Invalid commit type`, as the claim's `oops`
example illustrates. -/
theorem lint_commit_dict_closed_type_set (c : ProposedCommit) :
    (∀ s, lint_commit_dict c = .ok s → ∃ t, c.type = some t ∧ t ∈ COMMIT_TYPES) ∧
    (∀ t, c.type = some t → t ∉ COMMIT_TYPES →
      lint_commit_dict c = .error (.invalidType (some t))) ∧
    lint_commit_dict { type := some "oops", title := "x", files := ["a"] } =
      .error (.invalidType (some "oops")) := by
  refine ⟨?_, ?_, by decide⟩
  · intro s hs
    match h : c.type with
    | none => simp [lint_commit_dict, h] at hs
    | some t =>
      refine ⟨t, rfl, ?_⟩
      by_contra hmem
      simp [lint_commit_dict, h, hmem] at hs
  · intro t ht hmem
    simp [lint_commit_dict, ht, hmem]

/-- Witness for `lint_commit_dict_closed_type_set`: a commit whose type
`nope` is outside the set is rejected with `Invalid commit type`. -/
theorem lint_commit_dict_closed_type_set_witness :
    lint_commit_dict { type := some "nope", title := "x", files := ["a"] } =
      .error (.invalidType (some "nope")) :=
  (lint_commit_dict_closed_type_set
    { type := some "nope", title := "x", files := ["a"] }).2.1 "nope" rfl (by decide)

/-- C9 counterexample: on a fenced block containing leading prose before
the JSON value, the source parser trims to the first brace inside the block
and returns the object, while the parser described by the claim (parse the
fenced contents from their start) fails. -/
theorem parse_oracle_fenced_prose_cex :
    parse_json_from_openai_response "```\nignore \x7b\"a\": 1\x7d\n```" =
        some (Json.obj [("a", Json.num "1")]) ∧
      parseOracleClaimModel "```\nignore \x7b\"a\": 1\x7d\n```" = none :=
  ⟨rfl, rfl⟩

/-- C9 (amended): for every Oracle response text, the parser first extracts
the contents of a fenced code block when one is present, and in either case
then cuts the text to the first `[` or `\x7b` (whichever comes first) before
parsing the first complete JSON value and discarding trailing text. -/
theorem parse_oracle_contract (text : String) :
    parse_json_from_openai_response text = parseOracleAmendedModel text := by
  unfold parse_json_from_openai_response parseOracleAmendedModel
  cases h : extractFence (strTrim text) <;> simp [h]

/-- C2 counterexample: in an environment where every git operation
succeeds, a batch of a valid commit, an invalid-type commit, and another
valid commit commits only the first one — the `ValidationError` aborts the
loop and the third commit is never staged or committed, contrary to the
claim that only the failing commit is skipped. -/
theorem apply_commits_validation_abort_cex :
    apply_commits envAllOk [cGood, cBad, cGood2] =
        (["feat: one"], some (.invalidType (some "oops"))) ∧
      "fix: two" ∉ (apply_commits envAllOk [cGood, cBad, cGood2]).1 := by decide

/-- C2 (amended): when validation of a commit fails, `apply_commits`
propagates the `ValidationError`: commits earlier in the list (here a
prefix processed without a validation error) have already been committed,
but the failing commit and every commit after it are not applied. -/
theorem apply_commits_validation_aborts_batch (env : CommitEnv)
    (l m : List ProposedCommit) (c : ProposedCommit) (e : LintError)
    (hfiles : c.files ≠ [])
    (hlint : lint_commit_dict c = .error e)
    (hok : (apply_commits env l).2 = none) :
    apply_commits env (l ++ c :: m) = ((apply_commits env l).1, some e) := by
  induction l with
  | nil =>
    simp [apply_commits, hfiles, hlint]
  | cons a l ih =>
    have hstep : ∀ (rest : List ProposedCommit),
        apply_commits env (a :: rest) =
          (if a.files = [] then apply_commits env rest
           else
             match lint_commit_dict a with
             | .error e2 => ([], some e2)
             | .ok subject =>
               if stageTargets env a.files = [] then apply_commits env rest
               else if !env.addOk (stageTargets env a.files) then apply_commits env rest
               else if env.commitOk subject (pyOr a.body "") then
                 (subject :: (apply_commits env rest).1, (apply_commits env rest).2)
               else apply_commits env rest) := fun _ => rfl
    rw [List.cons_append, hstep (l ++ c :: m), hstep l]
    rw [hstep l] at hok
    by_cases hf : a.files = []
    · rw [if_pos hf, if_pos hf]
      rw [if_pos hf] at hok
      exact ih hok
    · rw [if_neg hf, if_neg hf]
      rw [if_neg hf] at hok
      cases hl : lint_commit_dict a with
      | error e2 =>
        rw [hl] at hok
        simp at hok
      | ok subject =>
        rw [hl] at hok
        dsimp only at hok ⊢
        split_ifs at hok ⊢ with h1 h2 h3
        · exact ih hok
        · exact ih hok
        · rw [ih hok]
        · exact ih hok

/-- Witness for `apply_commits_validation_aborts_batch`: a valid prefix, an
invalid-type commit, and a valid trailing commit, in the all-succeeding
environment. -/
theorem apply_commits_validation_aborts_batch_witness :
    apply_commits envAllOk ([cGood] ++ cBad :: [cGood2]) =
      ((apply_commits envAllOk [cGood]).1, some (.invalidType (some "oops"))) :=
  apply_commits_validation_aborts_batch envAllOk [cGood] [cGood2] cBad
    (.invalidType (some "oops")) (by decide) (by decide) (by decide)

/-- C5: for every non-empty commit range (with its first commit resolvable
and the merge scan empty, the function's own preconditions for reaching the
count check) and every plan whose rewritten count differs from the range
length, whose normalized merge strategy is not `squash`, and which has more
than one entry (hence is not a drop-with-empty-list and not a single-entry
plan), `apply_fix_plan` fails with the count-mismatch error and performs no
mutation: the returned state is exactly the input state. -/
theorem apply_fix_plan_count_mismatch_fails
    (st : GitState) (first : Nat) (rest : List Nat) (plan : FixPlan) (fc : Commit)
    (hclean : st.clean = true)
    (hfc : st.objects[first]? = some fc)
    (hmerge : fixRevRangeMerges st (first :: rest) = [])
    (hms : strLower (strTrim (pyOr plan.mergeStrategy "")) ≠ "squash")
    (hlen2 : 2 ≤ (plan.rewrittenCommits.getD []).length)
    (hcount : (plan.rewrittenCommits.getD []).length ≠ (first :: rest).length) :
    apply_fix_plan st (first :: rest) plan = (st, .error .countMismatch) := by
  have hne : ¬(plan.rewrittenCommits.getD [] = []) := by
    intro h
    rw [h] at hlen2
    simp at hlen2
  have hone : ¬((plan.rewrittenCommits.getD []).length = 1) := by omega
  simp only [List.length_cons] at hcount
  simp [apply_fix_plan, hclean, hfc, hmerge, hne, hms, hone, hcount]

/-- Witness for `apply_fix_plan_count_mismatch_fails`: a two-commit range
of the linear repository with the three-entry plan. -/
theorem apply_fix_plan_count_mismatch_fails_witness :
    apply_fix_plan exRepo [1, 2] exMismatchPlan = (exRepo, .error .countMismatch) :=
  apply_fix_plan_count_mismatch_fails exRepo 1 [2] exMismatchPlan
    { tree := 101, parents := [0], title := "feat: a", body := "" }
    rfl rfl (by decide) (by decide) (by decide) (by decide)

/-- C6: for every non-empty range whose merge scan is empty, on a clean
tree, when the plan's strategy normalizes to `squash` or exactly one
rewritten commit is present (and the effective title is not
whitespace-only), `apply_fix_plan` creates exactly one new commit object
whose tree is HEAD's tree `hc.tree` (the current checked-out tree, not the
original per-commit trees), whose title/description come from the single
rewritten commit or the default `Rewrite commits` title, parented on the
range's base parent; it moves the branch pointer to it and returns
`"squashed"`. -/
theorem apply_fix_plan_squash_current_tree
    (st : GitState) (first : Nat) (rest : List Nat) (plan : FixPlan) (fc hc : Commit)
    (hclean : st.clean = true)
    (hfc : st.objects[first]? = some fc)
    (hmerge : fixRevRangeMerges st (first :: rest) = [])
    (hsq : strLower (strTrim (pyOr plan.mergeStrategy "")) = "squash" ∨
      (plan.rewrittenCommits.getD []).length = 1)
    (hhead : st.objects[st.branch]? = some hc)
    (htitle : (trimChars (pyOr (squashEntry plan).title "Rewrite commits").data).isEmpty = false) :
    apply_fix_plan st (first :: rest) plan =
      ({ st with
          objects := st.objects ++
            [{ tree := hc.tree
               parents := fc.parents.head?.toList
               title := ⟨trimChars (pyOr (squashEntry plan).title "Rewrite commits").data⟩
               body := ⟨trimChars (pyOr (squashEntry plan).description "").data⟩ }]
          branch := st.objects.length
          clean := true },
       .ok "squashed") := by
  have hdrop : ¬(strLower (strTrim (pyOr plan.mergeStrategy "")) = "drop" ∧
      plan.rewrittenCommits.getD [] = []) := by
    rintro ⟨h1, h2⟩
    rcases hsq with h | h
    · rw [h] at h1
      exact absurd h1 (by decide)
    · rw [h2] at h
      simp at h
  simp [apply_fix_plan, hclean, hfc, hmerge, hdrop, hsq, hhead, commit_tree, htitle]

/-- Witness for `apply_fix_plan_squash_current_tree`: squashing the
two-commit range of the linear repository with the single-entry plan. -/
theorem apply_fix_plan_squash_current_tree_witness :
    apply_fix_plan exRepo [1, 2] exSquashPlan =
      ({ exRepo with
          objects := exRepo.objects ++
            [{ tree := 102, parents := [0], title := "One", body := "d" }]
          branch := 3 },
       .ok "squashed") := by
  have h := apply_fix_plan_squash_current_tree exRepo 1 [2] exSquashPlan
    { tree := 101, parents := [0], title := "feat: a", body := "" }
    { tree := 102, parents := [1], title := "fix: b", body := "" }
    rfl rfl (by decide) (Or.inl (by decide)) rfl (by decide)
  exact h

/-- C4 code bug: the range `[0, 2]` of `exRootMerge` contains the merge
commit `2`, yet `apply_fix_plan` does not fail with the merge-history
error: the first commit of the range is a root, so the source interpolates
the revision range `..last` (read by git as `HEAD..last`), the merge scan
comes back empty, and the function proceeds to rewrite the range — creating
two new objects and moving the branch pointer — instead of failing fast. -/
theorem apply_fix_plan_root_range_merge_not_refused :
    (∃ m, exRootMerge.objects[2]? = some m ∧ 2 ≤ m.parents.length) ∧
    fixRevRangeMerges exRootMerge [0, 2] = [] ∧
    apply_fix_plan exRootMerge [0, 2]
        { rewrittenCommits := some [{ title := some "x" }, { title := some "y" }]
          mergeStrategy := some "" } =
      ({ exRootMerge with
          objects := exRootMerge.objects ++
            [ { tree := 100, parents := [], title := "x", body := "" }
            , { tree := 102, parents := [3], title := "y", body := "" } ]
          branch := 4 },
       .ok "rewritten") := by
  exact ⟨⟨{ tree := 102, parents := [0, 1], title := "merge", body := "" }, rfl, by decide⟩,
    rfl, by decide⟩

/-- The expected rewrite chain ignores commit objects appended after the
originals it reads (all its lookups hit the original store). -/
theorem newChain_append_stable (objs extra : List Commit) (n : Nat) (ln : Option Nat)
    (pairs : List (RewrittenCommit × Nat))
    (h : ∀ p ∈ pairs, p.2 < objs.length) :
    newChain (objs ++ extra) n ln pairs = newChain objs n ln pairs := by
  induction pairs generalizing n ln with
  | nil => rfl
  | cons p rest ih =>
    obtain ⟨e, o⟩ := p
    have ho : o < objs.length := h (e, o) (List.mem_cons_self _ _)
    have hg : (objs ++ extra)[o]? = objs[o]? := List.getElem?_append_left ho
    simp only [newChain, hg]
    cases hoo : objs[o]? with
    | none => rfl
    | some oc =>
      rw [ih (n + 1) (some n) (fun q hq => h q (List.mem_cons_of_mem _ hq))]

/-- The expected rewrite chain has one commit per plan/original pair. -/
theorem newChain_length (objs : List Commit) (n : Nat) (ln : Option Nat)
    (pairs : List (RewrittenCommit × Nat))
    (h : ∀ p ∈ pairs, p.2 < objs.length) :
    (newChain objs n ln pairs).length = pairs.length := by
  induction pairs generalizing n ln with
  | nil => rfl
  | cons p rest ih =>
    obtain ⟨e, o⟩ := p
    have ho : o < objs.length := h (e, o) (List.mem_cons_self _ _)
    have hsome : objs[o]? = some objs[o] := List.getElem?_eq_getElem ho
    simp only [newChain, hsome, List.length_cons]
    rw [ih (n + 1) (some n) (fun q hq => h q (List.mem_cons_of_mem _ hq))]

/-- Per-index characterization of the expected rewrite chain: the `i`-th
new commit carries the `i`-th original's tree, the `i`-th plan entry's
stripped title/description, and is parented on the previous new sha (the
starting parent for `i = 0`). -/
theorem newChain_get (objs : List Commit) (pairs : List (RewrittenCommit × Nat))
    (n : Nat) (ln : Option Nat)
    (hlook : ∀ p ∈ pairs, p.2 < objs.length) :
    ∀ i, i < pairs.length → ∃ e o oc,
      pairs[i]? = some (e, o) ∧ objs[o]? = some oc ∧
      (newChain objs n ln pairs)[i]? = some
        { tree := oc.tree
          parents := if i = 0 then ln.toList else [n + i - 1]
          title := ⟨trimChars (pyOr e.title "").data⟩
          body := ⟨trimChars (pyOr e.description "").data⟩ } := by
  induction pairs generalizing n ln with
  | nil =>
    intro i hi
    simp at hi
  | cons p rest ih =>
    obtain ⟨e, o⟩ := p
    intro i hi
    have ho : o < objs.length := hlook (e, o) (List.mem_cons_self _ _)
    have hsome : objs[o]? = some objs[o] := List.getElem?_eq_getElem ho
    cases i with
    | zero =>
      refine ⟨e, o, objs[o], by simp, hsome, ?_⟩
      simp [newChain, hsome]
    | succ j =>
      have hj : j < rest.length := by simpa using hi
      obtain ⟨e2, o2, oc2, h1, h2, h3⟩ :=
        ih (n + 1) (some n) (fun q hq => hlook q (List.mem_cons_of_mem _ hq)) j hj
      refine ⟨e2, o2, oc2, by simpa using h1, h2, ?_⟩
      simp only [newChain, hsome, List.getElem?_cons_succ]
      rw [h3]
      cases j with
      | zero => simp
      | succ k =>
        have harith : n + 1 + (k + 1) - 1 = n + (k + 1 + 1) - 1 := by omega
        simp [harith]

/-- Full characterization of the message-only rewrite loop on inputs whose
lookups succeed and whose titles are not whitespace-only: it appends
exactly the expected chain and hands back the last new sha. -/
theorem rewriteChain_eq (pairs : List (RewrittenCommit × Nat)) (st : GitState)
    (ln : Option Nat)
    (hlook : ∀ p ∈ pairs, p.2 < st.objects.length)
    (htitle : ∀ p ∈ pairs, (trimChars (pyOr p.1.title "").data).isEmpty = false) :
    rewriteChain st pairs ln =
      ({ st with objects := st.objects ++ newChain st.objects st.objects.length ln pairs },
       .ok (if pairs.isEmpty then ln else some (st.objects.length + pairs.length - 1))) := by
  induction pairs generalizing st ln with
  | nil =>
    simp [rewriteChain, newChain]
  | cons p rest ih =>
    obtain ⟨e, o⟩ := p
    have ho : o < st.objects.length := hlook (e, o) (List.mem_cons_self _ _)
    have hsome : st.objects[o]? = some st.objects[o] := List.getElem?_eq_getElem ho
    have hti : (trimChars (pyOr e.title "").data).isEmpty = false :=
      htitle (e, o) (List.mem_cons_self _ _)
    simp only [rewriteChain, hsome, commit_tree, hti, Bool.false_eq_true, if_false]
    rw [ih { st with
              objects := st.objects ++
                [{ tree := st.objects[o].tree
                   parents := ln.toList
                   title := ⟨trimChars (pyOr e.title "").data⟩
                   body := ⟨trimChars (pyOr e.description "").data⟩ }] }
          (some st.objects.length)
          (fun q hq => by
            have := hlook q (List.mem_cons_of_mem _ hq)
            simp only [List.length_append, List.length_cons, List.length_nil]
            omega)
          (fun q hq => htitle q (List.mem_cons_of_mem _ hq))]
    have hstable :
        newChain (st.objects ++
            [{ tree := st.objects[o].tree
               parents := ln.toList
               title := ⟨trimChars (pyOr e.title "").data⟩
               body := ⟨trimChars (pyOr e.description "").data⟩ }])
          (st.objects.length + 1) (some st.objects.length) rest =
        newChain st.objects (st.objects.length + 1) (some st.objects.length) rest :=
      newChain_append_stable _ _ _ _ _ (fun q hq => hlook q (List.mem_cons_of_mem _ hq))
    simp only [List.length_append, List.length_cons, List.length_nil, Nat.zero_add,
      Nat.add_zero, hstable, Prod.mk.injEq, GitState.mk.injEq, Except.ok.injEq]
    refine ⟨⟨?_, trivial, trivial, trivial⟩, ?_⟩
    · simp [newChain, hsome, List.append_assoc]
    · cases rest with
      | nil => simp [newChain]
      | cons q qs =>
        simp only [List.isEmpty_cons, Bool.false_eq_true, if_false, List.length_cons,
          Option.some.injEq]
        omega

/-- C1: on a clean tree, for every non-empty range whose merge scan is
empty, whose commits all resolve, and every plan with matching commit
count, a strategy other than `squash`, more than one entry, and no
whitespace-only titles, `apply_fix_plan` walks the two sequences pairwise
in original order, creates for each pair a new commit using the original
commit's tree unchanged and the new stripped title/description, chains each
new commit as the sole parent of the next starting from the range's base
parent, moves the branch pointer to the final new commit, and returns
`"rewritten"`; every original tree is preserved exactly and the resulting
chain has the same length as the range. -/
theorem apply_fix_plan_rewrite_preserves_trees
    (st : GitState) (first : Nat) (rest : List Nat) (plan : FixPlan) (fc : Commit)
    (hclean : st.clean = true)
    (hfc : st.objects[first]? = some fc)
    (hmerge : fixRevRangeMerges st (first :: rest) = [])
    (hms : strLower (strTrim (pyOr plan.mergeStrategy "")) ≠ "squash")
    (hcount : (plan.rewrittenCommits.getD []).length = (first :: rest).length)
    (hlen2 : 2 ≤ (first :: rest).length)
    (hlook : ∀ h ∈ first :: rest, h < st.objects.length)
    (htitles : ∀ e ∈ plan.rewrittenCommits.getD [],
      (trimChars (pyOr e.title "").data).isEmpty = false) :
    (apply_fix_plan st (first :: rest) plan).2 = .ok "rewritten" ∧
    (apply_fix_plan st (first :: rest) plan).1.objects.length =
      st.objects.length + (first :: rest).length ∧
    (apply_fix_plan st (first :: rest) plan).1.branch =
      st.objects.length + (first :: rest).length - 1 ∧
    (apply_fix_plan st (first :: rest) plan).1.clean = true ∧
    (∀ i, i < (first :: rest).length → ∃ e o oc,
      (plan.rewrittenCommits.getD [])[i]? = some e ∧
      (first :: rest)[i]? = some o ∧
      st.objects[o]? = some oc ∧
      (apply_fix_plan st (first :: rest) plan).1.objects[st.objects.length + i]? = some
        { tree := oc.tree
          parents := if i = 0 then fc.parents.head?.toList else [st.objects.length + i - 1]
          title := ⟨trimChars (pyOr e.title "").data⟩
          body := ⟨trimChars (pyOr e.description "").data⟩ }) := by
  set rewritten := plan.rewrittenCommits.getD [] with hrw
  set commits := first :: rest with hcm
  set pairs := rewritten.zip commits with hpz
  have hplen : pairs.length = commits.length := by
    rw [hpz, List.length_zip, hcount]
    omega
  have hlookp : ∀ p ∈ pairs, p.2 < st.objects.length := by
    intro p hp
    exact hlook p.2 (List.of_mem_zip hp).2
  have htitlep : ∀ p ∈ pairs, (trimChars (pyOr p.1.title "").data).isEmpty = false := by
    intro p hp
    exact htitles p.1 (List.of_mem_zip hp).1
  have hne : ¬(rewritten = []) := by
    intro h
    rw [h] at hcount
    simp [hcm] at hcount
  have hone : ¬(rewritten.length = 1) := by
    rw [hcount]
    omega
  have hpne : ¬(pairs.isEmpty = true) := by
    rw [List.isEmpty_iff]
    intro h
    rw [h] at hplen
    simp [hcm] at hplen
  have hcnt : ¬(rewritten.length ≠ commits.length) := by
    rw [hcount]
    exact fun h => h rfl
  have key : apply_fix_plan st commits plan =
      ({ st with
          objects := st.objects ++ newChain st.objects st.objects.length fc.parents.head? pairs
          branch := st.objects.length + pairs.length - 1
          clean := true },
       .ok "rewritten") := by
    rw [hcm]
    simp only [apply_fix_plan, hclean, Bool.not_true, Bool.false_eq_true, if_false, hfc]
    rw [← hcm, ← hrw]
    simp only [hmerge, List.isEmpty_nil, Bool.not_true, Bool.false_eq_true, if_false]
    rw [if_neg (by intro h; exact hne h.2), if_neg (by rintro (h | h); exact hms h; exact hone h),
      if_neg hcnt, ← hpz, rewriteChain_eq pairs st fc.parents.head? hlookp htitlep,
      if_neg hpne]
  refine ⟨by rw [key], ?_, by rw [key, hplen], by rw [key], ?_⟩
  · rw [key]
    simp only [List.length_append]
    rw [newChain_length st.objects st.objects.length fc.parents.head? pairs hlookp, hplen]
  · intro i hi
    have hip : i < pairs.length := by rw [hplen]; exact hi
    obtain ⟨e, o, oc, h1, h2, h3⟩ :=
      newChain_get st.objects pairs st.objects.length fc.parents.head? hlookp i hip
    have hz := (List.getElem?_zip_eq_some.mp h1)
    refine ⟨e, o, oc, hz.1, hz.2, h2, ?_⟩
    rw [key]
    have hlen : st.objects.length ≤ st.objects.length + i := Nat.le_add_right _ _
    rw [List.getElem?_append_right hlen, Nat.add_sub_cancel_left]
    exact h3

/-- Witness for `apply_fix_plan_rewrite_preserves_trees`: the two-commit
range `[1, 2]` of the linear repository under the two-entry plan with the
`reorder` strategy. -/
theorem apply_fix_plan_rewrite_preserves_trees_witness :
    (apply_fix_plan exRepo [1, 2] exRewritePlan).2 = .ok "rewritten" ∧
    (apply_fix_plan exRepo [1, 2] exRewritePlan).1.objects.length = 3 + 2 ∧
    (apply_fix_plan exRepo [1, 2] exRewritePlan).1.branch = 3 + 2 - 1 ∧
    (apply_fix_plan exRepo [1, 2] exRewritePlan).1.clean = true ∧
    (∀ i, i < 2 → ∃ e o oc,
      (exRewritePlan.rewrittenCommits.getD [])[i]? = some e ∧
      [1, 2][i]? = some o ∧
      exRepo.objects[o]? = some oc ∧
      (apply_fix_plan exRepo [1, 2] exRewritePlan).1.objects[3 + i]? = some
        { tree := oc.tree
          parents := if i = 0 then [0] else [3 + i - 1]
          title := ⟨trimChars (pyOr e.title "").data⟩
          body := ⟨trimChars (pyOr e.description "").data⟩ }) :=
  apply_fix_plan_rewrite_preserves_trees exRepo 1 [2] exRewritePlan
    { tree := 101, parents := [0], title := "feat: a", body := "" }
    rfl rfl (by decide) (by decide) (by decide) (by decide) (by decide) (by decide)

/-- While an event is already pending with a live timer and a set deadline,
a further event changes nothing: the debounce window absorbs it. -/
theorem event_step_noop (I : Nat) (st : SchedState) (x : Nat)
    (hp : st.pending = true) (hn : st.nextRun.isSome = true)
    (ht : st.timer.isSome = true) (hstop : st.stopSet = false) (hI : 0 < I) :
    stepSched I st (SchedAct.event x false) = (st, false) := by
  obtain ⟨p, pr, tm, lr, nr, sp⟩ := st
  dsimp only at hp hn ht hstop
  subst hp hstop
  cases tm with
  | none => simp at ht
  | some f =>
    cases nr with
    | none => simp at hn
    | some d => simp [stepSched, onAnyEvent, scheduleLocked, hI]

/-- A whole burst of events is absorbed without scheduling anything new:
both the run count and the validity of the remaining trace are those of the
trace without the burst. -/
theorem runSched_events_noop (I : Nat) (st : SchedState) (xs : List Nat)
    (more : List SchedAct)
    (hp : st.pending = true) (hn : st.nextRun.isSome = true)
    (ht : st.timer.isSome = true) (hstop : st.stopSet = false) (hI : 0 < I) :
    runSched I st (eventTrace xs ++ more) = runSched I st more ∧
    validTrace I st (eventTrace xs ++ more) = validTrace I st more := by
  induction xs with
  | nil => exact ⟨rfl, rfl⟩
  | cons x xs ih =>
    have hstep := event_step_noop I st x hp hn ht hstop hI
    constructor
    · simp only [eventTrace, List.map_cons, List.cons_append, runSched, hstep, List.append_eq]
      rw [show (eventTrace xs ++ more) = (xs.map (fun x => SchedAct.event x false) ++ more)
        from rfl] at ih
      rw [ih.1]
      simp
    · simp only [eventTrace, List.map_cons, List.cons_append, validTrace, hstep]
      rw [show (eventTrace xs ++ more) = (xs.map (fun x => SchedAct.event x false) ++ more)
        from rfl] at ih
      exact ih.2

/-- Completing a run with nothing pending returns the scheduler to the
idle state without arming anything. -/
theorem complete_from_proc (I f tcx : Nat) :
    stepSched I (procSt f) (SchedAct.complete tcx) = (idleSt f, false) := by
  simp [stepSched, completeStep, procSt, idleSt]

/-- C7: debounce coalescing produces exactly one run.  Scenario (a): from
idle, a first event plus any burst of further events arm exactly one timer;
its firing at the armed time starts exactly one processing run, and after
completion the scheduler is idle with no timer armed.  Scenarios (b1) and
(b2): events delivered while a run is in flight produce exactly one
follow-up run after the run completes — whether the timer armed during
processing fires early (a no-op, with the completion re-arming it) or
outlives the run and serves as the follow-up directly.  Every trace is also
shown valid: each fire matches the armed timer, each completion an
in-flight run. -/
theorem scheduler_coalesces_to_single_run
    (I L R t u tc tc2 : Nat) (ts us : List Nat)
    (hI : 0 < I) (hR : 0 < R) :
    (validTrace I (idleSt L)
        (SchedAct.event t false :: eventTrace ts ++
          [SchedAct.fire (t + ((if 0 < L then L + I else t + I) - t)),
           SchedAct.complete tc]) = true ∧
      runSched I (idleSt L)
        (SchedAct.event t false :: eventTrace ts ++
          [SchedAct.fire (t + ((if 0 < L then L + I else t + I) - t)),
           SchedAct.complete tc]) =
        (idleSt (t + ((if 0 < L then L + I else t + I) - t)), 1)) ∧
    (validTrace I (procSt R)
        (SchedAct.event u false :: eventTrace us ++
          [SchedAct.fire (u + ((R + I) - u)), SchedAct.complete tc,
           SchedAct.fire (tc + ((R + I) - tc)), SchedAct.complete tc2]) = true ∧
      runSched I (procSt R)
        (SchedAct.event u false :: eventTrace us ++
          [SchedAct.fire (u + ((R + I) - u)), SchedAct.complete tc,
           SchedAct.fire (tc + ((R + I) - tc)), SchedAct.complete tc2]) =
        (idleSt (tc + ((R + I) - tc)), 1)) ∧
    (validTrace I (procSt R)
        (SchedAct.event u false :: eventTrace us ++
          [SchedAct.complete tc, SchedAct.fire (u + ((R + I) - u)),
           SchedAct.complete tc2]) = true ∧
      runSched I (procSt R)
        (SchedAct.event u false :: eventTrace us ++
          [SchedAct.complete tc, SchedAct.fire (u + ((R + I) - u)),
           SchedAct.complete tc2]) =
        (idleSt (u + ((R + I) - u)), 1)) := by
  have hfdA : ¬ (t + ((if 0 < L then L + I else t + I) - t) <
      (if 0 < L then L + I else t + I)) := by omega
  have e1A : stepSched I (idleSt L) (SchedAct.event t false) =
      ((⟨true, false, some (t + ((if 0 < L then L + I else t + I) - t)), L,
        some (if 0 < L then L + I else t + I), false⟩ : SchedState), false) := by
    simp [stepSched, onAnyEvent, idleSt, scheduleLocked, hI]
  have e2A : stepSched I
      ((⟨true, false, some (t + ((if 0 < L then L + I else t + I) - t)), L,
        some (if 0 < L then L + I else t + I), false⟩ : SchedState))
      (SchedAct.fire (t + ((if 0 < L then L + I else t + I) - t))) =
      (procSt (t + ((if 0 < L then L + I else t + I) - t)), true) := by
    simp [stepSched, processPendingStep, procSt, hI, hfdA]
  have hnoA := runSched_events_noop I
    (⟨true, false, some (t + ((if 0 < L then L + I else t + I) - t)), L,
      some (if 0 < L then L + I else t + I), false⟩ : SchedState)
    ts [SchedAct.fire (t + ((if 0 < L then L + I else t + I) - t)), SchedAct.complete tc]
    rfl rfl rfl rfl hI
  have hfdB : ¬ (u + ((R + I) - u) < R + I) := by omega
  have hfdB3 : ¬ (tc + ((R + I) - tc) < R + I) := by omega
  have e1B : stepSched I (procSt R) (SchedAct.event u false) =
      ((⟨true, true, some (u + ((R + I) - u)), R, some (R + I), false⟩ : SchedState),
        false) := by
    simp [stepSched, onAnyEvent, procSt, scheduleLocked, hI, hR]
  have e2B1 : stepSched I
      ((⟨true, true, some (u + ((R + I) - u)), R, some (R + I), false⟩ : SchedState))
      (SchedAct.fire (u + ((R + I) - u))) =
      ((⟨true, true, none, R, some (R + I), false⟩ : SchedState), false) := by
    simp [stepSched, processPendingStep]
  have e3B1 : stepSched I
      ((⟨true, true, none, R, some (R + I), false⟩ : SchedState))
      (SchedAct.complete tc) =
      ((⟨true, false, some (tc + ((R + I) - tc)), R, some (R + I), false⟩ : SchedState),
        false) := by
    simp [stepSched, completeStep, scheduleLocked, hI]
  have e4B1 : stepSched I
      ((⟨true, false, some (tc + ((R + I) - tc)), R, some (R + I), false⟩ : SchedState))
      (SchedAct.fire (tc + ((R + I) - tc))) =
      (procSt (tc + ((R + I) - tc)), true) := by
    simp [stepSched, processPendingStep, procSt, hI, hfdB3]
  have hnoB1 := runSched_events_noop I
    (⟨true, true, some (u + ((R + I) - u)), R, some (R + I), false⟩ : SchedState)
    us [SchedAct.fire (u + ((R + I) - u)), SchedAct.complete tc,
        SchedAct.fire (tc + ((R + I) - tc)), SchedAct.complete tc2]
    rfl rfl rfl rfl hI
  have e2B2 : stepSched I
      ((⟨true, true, some (u + ((R + I) - u)), R, some (R + I), false⟩ : SchedState))
      (SchedAct.complete tc) =
      ((⟨true, false, some (u + ((R + I) - u)), R, some (R + I), false⟩ : SchedState),
        false) := by
    simp [stepSched, completeStep, scheduleLocked, hI]
  have e3B2 : stepSched I
      ((⟨true, false, some (u + ((R + I) - u)), R, some (R + I), false⟩ : SchedState))
      (SchedAct.fire (u + ((R + I) - u))) =
      (procSt (u + ((R + I) - u)), true) := by
    simp [stepSched, processPendingStep, procSt, hI, hfdB]
  have hnoB2 := runSched_events_noop I
    (⟨true, true, some (u + ((R + I) - u)), R, some (R + I), false⟩ : SchedState)
    us [SchedAct.complete tc, SchedAct.fire (u + ((R + I) - u)), SchedAct.complete tc2]
    rfl rfl rfl rfl hI
  refine ⟨⟨?_, ?_⟩, ⟨?_, ?_⟩, ⟨?_, ?_⟩⟩
  · simp only [validTrace, validAct, e1A, List.append_eq]
    rw [hnoA.2]
    simp only [validTrace, validAct, e2A, complete_from_proc]
    simp [procSt]
  · simp only [runSched, e1A, List.append_eq]
    rw [hnoA.1]
    simp only [runSched, e2A, complete_from_proc]
    simp
  · simp only [validTrace, validAct, e1B, List.append_eq]
    rw [hnoB1.2]
    simp only [validTrace, validAct, e2B1, e3B1, e4B1, complete_from_proc]
    simp [procSt]
  · simp only [runSched, e1B, List.append_eq]
    rw [hnoB1.1]
    simp only [runSched, e2B1, e3B1, e4B1, complete_from_proc]
    simp
  · simp only [validTrace, validAct, e1B, List.append_eq]
    rw [hnoB2.2]
    simp only [validTrace, validAct, e2B2, e3B2, complete_from_proc]
    simp [procSt]
  · simp only [runSched, e1B, List.append_eq]
    rw [hnoB2.1]
    simp only [runSched, e2B2, e3B2, complete_from_proc]
    simp

/-- Witness for `scheduler_coalesces_to_single_run`: interval 5, previous
run at 10, in-flight run started at 7, with concrete event bursts. -/
theorem scheduler_coalesces_to_single_run_witness :
    (validTrace 5 (idleSt 10)
        (SchedAct.event 20 false :: eventTrace [20, 20] ++
          [SchedAct.fire 20, SchedAct.complete 30]) = true ∧
      runSched 5 (idleSt 10)
        (SchedAct.event 20 false :: eventTrace [20, 20] ++
          [SchedAct.fire 20, SchedAct.complete 30]) = (idleSt 20, 1)) ∧
    (validTrace 5 (procSt 7)
        (SchedAct.event 9 false :: eventTrace [10] ++
          [SchedAct.fire 12, SchedAct.complete 30, SchedAct.fire 30,
           SchedAct.complete 40]) = true ∧
      runSched 5 (procSt 7)
        (SchedAct.event 9 false :: eventTrace [10] ++
          [SchedAct.fire 12, SchedAct.complete 30, SchedAct.fire 30,
           SchedAct.complete 40]) = (idleSt 30, 1)) ∧
    (validTrace 5 (procSt 7)
        (SchedAct.event 9 false :: eventTrace [10] ++
          [SchedAct.complete 30, SchedAct.fire 12, SchedAct.complete 40]) = true ∧
      runSched 5 (procSt 7)
        (SchedAct.event 9 false :: eventTrace [10] ++
          [SchedAct.complete 30, SchedAct.fire 12, SchedAct.complete 40]) =
        (idleSt 12, 1)) :=
  scheduler_coalesces_to_single_run 5 10 7 20 9 30 40 [20, 20] [10]
    (by decide) (by decide)

end AutoGit
